import Mathlib

/-!
Shallow embedding of the monstats scoring and leaderboard engine.

Real-number arithmetic of the JavaScript source (IEEE doubles) is embedded
as exact rational arithmetic over the type of rationals; integer fields parsed with
parseInt are embedded as integers or naturals.  JS Math.round rounds half
toward positive infinity, which matches the Mathlib rounding function on rationals
(round x = floor (x + 1/2)).  JS Array.prototype.sort with an ascending
numeric comparator is embedded as a stable merge sort with the
less-or-equal comparator.  JS Array.prototype.findIndex, which returns -1
on failure, is embedded with an option-returning index search.
-/

namespace Monstats

open List

/-- Rounding to two decimal places as done throughout the source:
Math.round(x * 100) / 100. -/
def round2 (x : ℚ) : ℚ := ((round (x * 100) : ℤ) : ℚ) / 100

/-- Core of normalizeToPercentile (src/src/lib/prisma.ts, lines 85-112),
applied to the already-transformed query value and population: an empty
population returns 0; a single-member population returns 100; otherwise the
population is sorted ascending, the index of the first population value
greater than or equal to the query value is taken (JS findIndex yields -1
when there is none, modelled by the none case), the percentile is
rank / population_size * 100 (0 for the -1 case), rounded to two decimals. -/
def normalizeCore (value : ℚ) (allValues : List ℚ) : ℚ :=
  if allValues.length = 0 then 0
  else if allValues.length = 1 then 100
  else
    let sortedValues := allValues.mergeSort
    let percentile : ℚ :=
      match sortedValues.findIdx? (fun v => value ≤ v) with
      | none => 0
      | some rank => ((rank : ℚ) / (sortedValues.length : ℚ)) * 100
    round2 percentile

/-- Embedding of normalizeToPercentile with its optional log transform.
The source applies Math.log(1 + x) to the query value and to every
population value when useLogTransform is set; the logarithm is
transcendental, hence not computable over the rationals, so the transform
is a parameter f.  Theorems about the log branch assume StrictMono f,
which is satisfied by the real function x. Math.log (1 + x) on the
nonnegative inputs the metrics take.  The length checks of the source
happen before the transform, but mapping f preserves length, so performing
them inside normalizeCore is equivalent. -/
def normalizeToPercentile (f : ℚ → ℚ) (value : ℚ) (allValues : List ℚ)
    (useLogTransform : Bool) : ℚ :=
  if useLogTransform then normalizeCore (f value) (allValues.map f)
  else normalizeCore value allValues

/-! Helper lemmas about round2. -/

theorem round2_zero : round2 0 = 0 := by
  simp [round2]

theorem round2_mono {x y : ℚ} (h : x ≤ y) : round2 x ≤ round2 y := by
  unfold round2
  have hz : round (x * 100) ≤ round (y * 100) := by
    rw [round_eq, round_eq]
    exact Int.floor_le_floor (by linarith)
  have hq : ((round (x * 100) : ℤ) : ℚ) ≤ ((round (y * 100) : ℤ) : ℚ) := by
    exact_mod_cast hz
  linarith

theorem round2_nonneg {x : ℚ} (h : 0 ≤ x) : 0 ≤ round2 x := by
  have := round2_mono h
  rwa [round2_zero] at this

theorem round2_lt_100 {x : ℚ} (h : x < 19999 / 200) : round2 x < 100 := by
  unfold round2
  have hr : round (x * 100) < 10000 := by
    rw [round_eq]
    exact Int.floor_lt.mpr (by push_cast; linarith)
  have hq : ((round (x * 100) : ℤ) : ℚ) ≤ 9999 := by
    exact_mod_cast Int.lt_add_one_iff.mp hr
  linarith

theorem round2_le_100 {x : ℚ} (h : x ≤ 100) : round2 x ≤ 100 := by
  unfold round2
  have hr : round (x * 100) < 10001 := by
    rw [round_eq]
    exact Int.floor_lt.mpr (by push_cast; linarith)
  have hq : ((round (x * 100) : ℤ) : ℚ) ≤ 10000 := by
    exact_mod_cast Int.lt_add_one_iff.mp hr
  linarith

theorem abs_round2_sub {x : ℚ} : |round2 x - x| ≤ 1 / 200 := by
  have h := abs_sub_round (x * 100)
  have heq : round2 x - x = (((round (x * 100) : ℤ) : ℚ) - x * 100) / 100 := by
    unfold round2; ring
  rw [heq, abs_div, abs_sub_comm]
  have h100 : |(100 : ℚ)| = 100 := by norm_num
  rw [h100]
  linarith

/-! Helper lemmas about the index search. -/

theorem findIdx?_le_of_imp {α : Type} {p q : α → Bool}
    (hpq : ∀ a, q a = true → p a = true) {l : List α} {i j : ℕ}
    (hi : l.findIdx? p = some i) (hj : l.findIdx? q = some j) : i ≤ j := by
  rw [List.findIdx?_eq_some_iff_getElem] at hi hj
  obtain ⟨hilen, hpi, himin⟩ := hi
  obtain ⟨hjlen, hqj, hjmin⟩ := hj
  by_contra hlt
  push_neg at hlt
  exact himin j hlt (hpq _ hqj)

theorem findIdx?_isSome_of_mem {value : ℚ} {l : List ℚ} (h : value ∈ l) :
    ∃ i, l.findIdx? (fun v => value ≤ v) = some i := by
  have : ∃ x, x ∈ l ∧ (decide (value ≤ x)) = true :=
    ⟨value, h, by simp⟩
  exact ⟨_, List.findIdx?_eq_some_of_exists this⟩

/-- The sorted population is a permutation of the population. -/
theorem mergeSort_mem_iff {l : List ℚ} {x : ℚ} : x ∈ l.mergeSort ↔ x ∈ l :=
  (List.mergeSort_perm l _).mem_iff

/-! Basic range facts about normalizeCore. -/

theorem normalizeCore_nonneg (value : ℚ) (allValues : List ℚ) :
    0 ≤ normalizeCore value allValues := by
  unfold normalizeCore
  split
  · norm_num
  · split
    · norm_num
    · apply round2_nonneg
      cases hfi : allValues.mergeSort.findIdx? (fun v => value ≤ v) with
      | none => simp
      | some rank =>
          simp only
          positivity

theorem normalizeCore_le_100 (value : ℚ) (allValues : List ℚ) :
    normalizeCore value allValues ≤ 100 := by
  unfold normalizeCore
  split
  · norm_num
  · split
    · norm_num
    · apply round2_le_100
      cases hfi : allValues.mergeSort.findIdx? (fun v => value ≤ v) with
      | none => norm_num
      | some rank =>
          simp only
          rw [List.findIdx?_eq_some_iff_getElem] at hfi
          obtain ⟨hlen, -, -⟩ := hfi
          set n := allValues.mergeSort.length with hn
          have hn0 : 0 < n := Nat.lt_of_le_of_lt (Nat.zero_le rank) hlen
          have hle : (rank : ℚ) ≤ (n : ℚ) := by exact_mod_cast le_of_lt hlen
          have hnq : (0 : ℚ) < (n : ℚ) := by exact_mod_cast hn0
          have hdiv : (rank : ℚ) / (n : ℚ) ≤ 1 := by
            rw [div_le_one hnq]; exact hle
          have := mul_le_mul_of_nonneg_right hdiv (by norm_num : (0 : ℚ) ≤ 100)
          linarith

/-! Structural lemmas about normalizeCore. -/

/-- Monotonicity of the core normalizer: if the larger query value occurs in
the population, the score is monotone in the query value. -/
theorem normalizeCore_mono {v1 v2 : ℚ} {l : List ℚ} (hle : v1 ≤ v2)
    (hmem : v2 ∈ l) : normalizeCore v1 l ≤ normalizeCore v2 l := by
  unfold normalizeCore
  split
  · exact le_refl _
  · split
    · exact le_refl _
    · simp only
      obtain ⟨j, hj⟩ := findIdx?_isSome_of_mem (mergeSort_mem_iff.mpr hmem)
      rw [hj]
      cases hfi : l.mergeSort.findIdx? (fun v => v1 ≤ v) with
      | none =>
          rw [round2_zero]
          apply round2_nonneg
          positivity
      | some i =>
          apply round2_mono
          have hij : i ≤ j := by
            apply findIdx?_le_of_imp _ hfi hj
            intro a ha
            simp only [decide_eq_true_eq] at ha ⊢
            linarith
          have hijq : (i : ℚ) ≤ (j : ℚ) := by exact_mod_cast hij
          have hn0 : (0 : ℚ) ≤ (l.mergeSort.length : ℚ) := by positivity
          have h1 : (i : ℚ) / (l.mergeSort.length : ℚ) ≤
              (j : ℚ) / (l.mergeSort.length : ℚ) := by
            rw [div_eq_mul_inv, div_eq_mul_inv]
            exact mul_le_mul_of_nonneg_right hijq (inv_nonneg.mpr hn0)
          exact mul_le_mul_of_nonneg_right h1 (by norm_num)

/-- In a strictly sorted list whose maximum is the query value, the first
index whose entry is greater or equal to the query is the last index. -/
theorem findIdx?_max_of_sorted {value : ℚ} :
    ∀ {l : List ℚ}, l.Sorted (· < ·) → value ∈ l → (∀ v ∈ l, v ≤ value) →
      l.findIdx? (fun v => value ≤ v) = some (l.length - 1) := by
  intro l
  induction l with
  | nil => intro _ hmem; exact absurd hmem (List.not_mem_nil value)
  | cons a t ih =>
      intro hsort hmem hmax
      cases t with
      | nil =>
          have hva : value = a := by
            rcases List.mem_singleton.mp hmem with h; exact h
          simp [List.findIdx?_cons, hva]
      | cons b t2 =>
          have hrel : ∀ x ∈ b :: t2, a < x := (List.sorted_cons.mp hsort).1
          have htail : (b :: t2).Sorted (· < ·) := (List.sorted_cons.mp hsort).2
          have hmem' : value ∈ b :: t2 := by
            rcases List.mem_cons.mp hmem with h | h
            · exfalso
              have hb := hrel b (List.mem_cons_self b t2)
              have hbv := hmax b (List.mem_cons_of_mem a (List.mem_cons_self b t2))
              rw [h] at hbv
              exact absurd hbv (not_le.mpr hb)
            · exact h
          have hav : a < value := hrel value hmem'
          have hmax' : ∀ v ∈ b :: t2, v ≤ value := fun v hv =>
            hmax v (List.mem_cons_of_mem a hv)
          have hrec := ih htail hmem' hmax'
          rw [List.findIdx?_cons, if_neg (by simp [not_le.mpr hav]),
            List.findIdx?_start_succ, hrec]
          simp

/-- Score of the strict maximum of a duplicate-free population of size N:
round2 of (N - 1) / N * 100. -/
theorem normalizeCore_strictMax {value : ℚ} {l : List ℚ}
    (h2 : 2 ≤ l.length) (hnd : l.Nodup) (hmem : value ∈ l)
    (hmax : ∀ v ∈ l, v ≤ value) :
    normalizeCore value l =
      round2 (((l.length : ℚ) - 1) / (l.length : ℚ) * 100) := by
  have hperm := List.mergeSort_perm l (fun a b => a ≤ b)
  have hsle : l.mergeSort.Sorted (· ≤ ·) := List.sorted_mergeSort' l
  have hsnd : l.mergeSort.Nodup := hperm.nodup_iff.mpr hnd
  have hslt : l.mergeSort.Sorted (· < ·) := hsle.lt_of_le hsnd
  have hsmem : value ∈ l.mergeSort := mergeSort_mem_iff.mpr hmem
  have hsmax : ∀ v ∈ l.mergeSort, v ≤ value := fun v hv =>
    hmax v (mergeSort_mem_iff.mp hv)
  have hfind := findIdx?_max_of_sorted hslt hsmem hsmax
  have hlen : l.mergeSort.length = l.length := hperm.length_eq
  unfold normalizeCore
  rw [if_neg (by omega), if_neg (by omega)]
  simp only [hfind, hlen]
  congr 1
  have h1 : 1 ≤ l.length := by omega
  push_cast [Nat.cast_sub h1]
  ring_nf

/-- When the query value exceeds every population value, the index search
fails and the fallback yields 0. -/
theorem normalizeCore_gt_all {value : ℚ} {l : List ℚ} (h2 : 2 ≤ l.length)
    (hgt : ∀ v ∈ l, v < value) : normalizeCore value l = 0 := by
  have hnone : l.mergeSort.findIdx? (fun v => value ≤ v) = none := by
    rw [List.findIdx?_eq_none_iff]
    intro x hx
    simp only [decide_eq_false_iff_not, not_le]
    exact hgt x (mergeSort_mem_iff.mp hx)
  unfold normalizeCore
  rw [if_neg (by omega), if_neg (by omega)]
  simp only [hnone]
  exact round2_zero

/-- When the population contains the query value, the index search succeeds
and the result comes from the rank formula. -/
theorem normalizeCore_of_mem {value : ℚ} {l : List ℚ} (h2 : 2 ≤ l.length)
    (hmem : value ∈ l) :
    ∃ rank, l.mergeSort.findIdx? (fun v => value ≤ v) = some rank ∧
      normalizeCore value l =
        round2 ((rank : ℚ) / (l.length : ℚ) * 100) := by
  obtain ⟨rank, hrank⟩ := findIdx?_isSome_of_mem (mergeSort_mem_iff.mpr hmem)
  refine ⟨rank, hrank, ?_⟩
  have hlen : l.mergeSort.length = l.length := (List.mergeSort_perm l _).length_eq
  unfold normalizeCore
  rw [if_neg (by omega), if_neg (by omega)]
  simp only [hrank, hlen]

/-- Rounding the top percentile of a population of exactly 20000 members to
two decimals lands exactly on 100: round2 (19999/20000 * 100) = 100. -/
theorem round2_top20000 : round2 (19999 / 200) = 100 := by
  unfold round2
  have h : round ((19999 : ℚ) / 200 * 100) = 10000 := by
    rw [round_eq]
    have heq : (19999 : ℚ) / 200 * 100 + 1 / 2 = 10000 := by norm_num
    rw [heq]
    norm_num
  rw [h]
  norm_num

/-- Claim C1 (amended): with a single-member population the normalizer
returns 100 regardless of the raw value; for a duplicate-free population of
size N at least 2 containing the query value, the wallet holding the strict
maximum scores round2 ((N - 1) / N * 100), which is strictly below 100
whenever N is below 20000 (for N at or above 20000 the two-decimal rounding
reaches exactly 100). -/
theorem claim1_percentile_algorithm :
    (∀ (f : ℚ → ℚ) (b : Bool) (value x : ℚ),
        normalizeToPercentile f value [x] b = 100) ∧
    ∀ (allValues : List ℚ) (value : ℚ),
      2 ≤ allValues.length → allValues.Nodup → value ∈ allValues →
      (∀ v ∈ allValues, v ≤ value) →
      normalizeCore value allValues =
        round2 (((allValues.length : ℚ) - 1) / (allValues.length : ℚ) * 100) ∧
      (allValues.length < 20000 → normalizeCore value allValues < 100) := by
  constructor
  · intro f b value x
    cases b <;> simp [normalizeToPercentile, normalizeCore]
  · intro allValues value h2 hnd hmem hmax
    refine ⟨normalizeCore_strictMax h2 hnd hmem hmax, fun hlt => ?_⟩
    rw [normalizeCore_strictMax h2 hnd hmem hmax]
    apply round2_lt_100
    have hN : (2 : ℚ) ≤ (allValues.length : ℚ) := by exact_mod_cast h2
    have hNlt : (allValues.length : ℚ) < 20000 := by exact_mod_cast hlt
    have hNpos : (0 : ℚ) < (allValues.length : ℚ) := by linarith
    rw [div_mul_eq_mul_div, div_lt_iff₀ hNpos]
    linarith

/-- Witness for claim C1 at the concrete population [0, 1] with query 1. -/
theorem claim1_witness : normalizeCore 1 [0, 1] < 100 :=
  (claim1_percentile_algorithm.2 [0, 1] 1 (by decide) (by decide) (by decide)
    (by decide)).2 (by decide)

/-- Counterexample to claim C1 as stated: the population 0, 1, ..., 19999
has at least two members, is duplicate-free and contains the query value
19999, its strict maximum, yet the normalizer returns exactly 100 for it
(the claim asserts the top score is never exactly 100 for N at least 2). -/
theorem claim1_counterexample :
    2 ≤ ((List.range 20000).map (fun n : ℕ => (n : ℚ))).length ∧
    ((List.range 20000).map (fun n : ℕ => (n : ℚ))).Nodup ∧
    (19999 : ℚ) ∈ (List.range 20000).map (fun n : ℕ => (n : ℚ)) ∧
    normalizeCore 19999 ((List.range 20000).map (fun n : ℕ => (n : ℚ))) = 100 := by
  have hlen : ((List.range 20000).map (fun n : ℕ => (n : ℚ))).length = 20000 := by
    rw [List.length_map, List.length_range]
  have hnd : ((List.range 20000).map (fun n : ℕ => (n : ℚ))).Nodup :=
    (List.nodup_range 20000).map Nat.cast_injective
  have hmem : (19999 : ℚ) ∈ (List.range 20000).map (fun n : ℕ => (n : ℚ)) :=
    List.mem_map.mpr ⟨19999, List.mem_range.mpr (by omega), by norm_cast⟩
  have hmax : ∀ v ∈ (List.range 20000).map (fun n : ℕ => (n : ℚ)), v ≤ 19999 := by
    intro v hv
    obtain ⟨n, hn, rfl⟩ := List.mem_map.mp hv
    have hn' : n ≤ 19999 := by
      have := List.mem_range.mp hn; omega
    exact_mod_cast hn'
  have h2 : 2 ≤ ((List.range 20000).map (fun n : ℕ => (n : ℚ))).length := by
    rw [hlen]; norm_num
  refine ⟨h2, hnd, hmem, ?_⟩
  rw [normalizeCore_strictMax h2 hnd hmem hmax, hlen]
  have harith : (((20000 : ℕ) : ℚ) - 1) / ((20000 : ℕ) : ℚ) * 100 =
      19999 / 200 := by push_cast; norm_num
  rw [harith, round2_top20000]

/-- Claim C4: on a population with at least two members, the percentile
normalizer is monotone non-decreasing in the query value for wallets whose
values belong to the population, in both the linear and the log-transformed
variants (the transform f standing for Math.log(1 + x) is assumed strictly
monotone, as the real logarithm is on the domain at hand). -/
theorem claim4_percentile_monotone (f : ℚ → ℚ) (hf : StrictMono f)
    (b : Bool) (allValues : List ℚ) (v1 v2 : ℚ)
    (hlen : 2 ≤ allValues.length) (hv1 : v1 ∈ allValues)
    (hv2 : v2 ∈ allValues) (hle : v1 ≤ v2) :
    normalizeToPercentile f v1 allValues b ≤
      normalizeToPercentile f v2 allValues b := by
  cases b with
  | false => exact normalizeCore_mono hle hv2
  | true =>
      simp only [normalizeToPercentile]
      exact normalizeCore_mono (hf.monotone hle) (List.mem_map.mpr ⟨v2, hv2, rfl⟩)

/-- Witness for claim C4 at the population [0, 1] with the identity
transform. -/
theorem claim4_witness :
    normalizeToPercentile id 0 [0, 1] true ≤ normalizeToPercentile id 1 [0, 1] true :=
  claim4_percentile_monotone id strictMono_id true [0, 1] 0 1 (by decide)
    (by decide) (by decide) (by decide)

/-- Claim C10 (amended): the empty population returns 0; on a population of
size at least 2 containing the query value the -1 fallback is unreachable
and the result comes from the rank / N * 100 formula; on a population of
size at least 2 whose members are all strictly below the query value the
fallback yields 0.  (A single-member population returns 100 before any
ranking, also when the query value exceeds its only member.) -/
theorem claim10_fallback_behaviour (value : ℚ) (allValues : List ℚ) :
    normalizeCore value [] = 0 ∧
    (2 ≤ allValues.length → value ∈ allValues →
      ∃ rank, allValues.mergeSort.findIdx? (fun v => value ≤ v) = some rank ∧
        normalizeCore value allValues =
          round2 ((rank : ℚ) / (allValues.length : ℚ) * 100)) ∧
    (2 ≤ allValues.length → (∀ v ∈ allValues, v < value) →
      normalizeCore value allValues = 0) :=
  ⟨by simp [normalizeCore],
   fun h2 hmem => normalizeCore_of_mem h2 hmem,
   fun h2 hgt => normalizeCore_gt_all h2 hgt⟩

/-- Witness for claim C10: a query value above every member of the
two-member population [3, 4] scores 0. -/
theorem claim10_witness : normalizeCore (5 : ℚ) [3, 4] = 0 :=
  (claim10_fallback_behaviour 5 [3, 4]).2.2 (by decide) (by decide)

/-- Counterexample to claim C10 as stated: for the single-member population
[5] the query value 10 is strictly greater than every population value, yet
the function returns 100, not the claimed fallback 0. -/
theorem claim10_counterexample :
    ((5 : ℚ) < 10) ∧ normalizeCore 10 [5] = 100 ∧ (100 : ℚ) ≠ 0 :=
  ⟨by norm_num, by simp [normalizeCore], by norm_num⟩

/-! Score composer (src/src/lib/prisma.ts, lines 57-181). -/

/-- Raw per-wallet metrics, as selected from the datastore and fed to the
scoring functions. -/
structure UserMetrics where
  txCount : ℕ
  gasSpentMON : ℚ
  totalVolume : ℚ
  nftBagValue : ℚ
  isDay1User : Bool
  longestStreak : ℕ
  daysActive : ℕ

/-- Component scores plus the weighted total. -/
structure UserScore where
  volumeScore : ℚ
  gasScore : ℚ
  transactionScore : ℚ
  nftScore : ℚ
  daysActiveScore : ℚ
  streakScore : ℚ
  day1BonusScore : ℚ
  totalScore : ℚ

/-- Weight distribution for scoring. -/
structure Weights where
  volume : ℚ
  gas : ℚ
  transactions : ℚ
  nft : ℚ
  daysActive : ℚ
  streak : ℚ
  day1Bonus : ℚ

/-- The configured weight table of src/src/lib/prisma.ts lines 58-66. -/
def WEIGHTS : Weights :=
  { volume := 25 / 100
    gas := 20 / 100
    transactions := 15 / 100
    nft := 15 / 100
    daysActive := 10 / 100
    streak := 10 / 100
    day1Bonus := 5 / 100 }

/-- Embedding of calculateComponentScores: percentile-normalize the six
rankable metrics over the whole population (log transform for volume, gas
and NFT value), a binary 100/0 day-1 bonus, and a weighted total rounded to
two decimals.  The transform parameter f models Math.log(1 + x) as in
normalizeToPercentile. -/
def calculateComponentScores (f : ℚ → ℚ) (userMetrics : UserMetrics)
    (allUsersMetrics : List UserMetrics) : UserScore :=
  let allVolumes := allUsersMetrics.map (fun u => u.totalVolume)
  let allGasSpent := allUsersMetrics.map (fun u => u.gasSpentMON)
  let allTxCounts := allUsersMetrics.map (fun u => (u.txCount : ℚ))
  let allNftValues := allUsersMetrics.map (fun u => u.nftBagValue)
  let allDaysActive := allUsersMetrics.map (fun u => (u.daysActive : ℚ))
  let allStreaks := allUsersMetrics.map (fun u => (u.longestStreak : ℚ))
  let volumeScore := normalizeToPercentile f userMetrics.totalVolume allVolumes true
  let gasScore := normalizeToPercentile f userMetrics.gasSpentMON allGasSpent true
  let transactionScore :=
    normalizeToPercentile f (userMetrics.txCount : ℚ) allTxCounts false
  let nftScore := normalizeToPercentile f userMetrics.nftBagValue allNftValues true
  let daysActiveScore :=
    normalizeToPercentile f (userMetrics.daysActive : ℚ) allDaysActive false
  let streakScore :=
    normalizeToPercentile f (userMetrics.longestStreak : ℚ) allStreaks false
  let day1BonusScore : ℚ := if userMetrics.isDay1User then 100 else 0
  let totalScore :=
    volumeScore * WEIGHTS.volume + gasScore * WEIGHTS.gas +
      transactionScore * WEIGHTS.transactions + nftScore * WEIGHTS.nft +
      daysActiveScore * WEIGHTS.daysActive + streakScore * WEIGHTS.streak +
      day1BonusScore * WEIGHTS.day1Bonus
  { volumeScore := volumeScore
    gasScore := gasScore
    transactionScore := transactionScore
    nftScore := nftScore
    daysActiveScore := daysActiveScore
    streakScore := streakScore
    day1BonusScore := day1BonusScore
    totalScore := round2 totalScore }

theorem normalizeToPercentile_nonneg (f : ℚ → ℚ) (v : ℚ) (l : List ℚ)
    (b : Bool) : 0 ≤ normalizeToPercentile f v l b := by
  cases b <;> simp only [normalizeToPercentile] <;> exact normalizeCore_nonneg _ _

theorem normalizeToPercentile_le_100 (f : ℚ → ℚ) (v : ℚ) (l : List ℚ)
    (b : Bool) : normalizeToPercentile f v l b ≤ 100 := by
  cases b <;> simp only [normalizeToPercentile] <;> exact normalizeCore_le_100 _ _

/-- Claim C3: the configured weights are the table 0.25 / 0.20 / 0.15 /
0.15 / 0.10 / 0.10 / 0.05 and sum to exactly 1; for every wallet and every
population the total score lies in [0, 100] and differs from the weighted
sum of the seven component scores only by the final two-decimal rounding,
hence by at most 0.01. -/
theorem claim3_total_score (f : ℚ → ℚ) (userMetrics : UserMetrics)
    (allUsersMetrics : List UserMetrics) :
    (WEIGHTS = ⟨25 / 100, 20 / 100, 15 / 100, 15 / 100, 10 / 100, 10 / 100, 5 / 100⟩) ∧
    (WEIGHTS.volume + WEIGHTS.gas + WEIGHTS.transactions + WEIGHTS.nft +
        WEIGHTS.daysActive + WEIGHTS.streak + WEIGHTS.day1Bonus = 1) ∧
    (0 ≤ (calculateComponentScores f userMetrics allUsersMetrics).totalScore ∧
      (calculateComponentScores f userMetrics allUsersMetrics).totalScore ≤ 100) ∧
    |(calculateComponentScores f userMetrics allUsersMetrics).totalScore -
        ((calculateComponentScores f userMetrics allUsersMetrics).volumeScore * WEIGHTS.volume +
          (calculateComponentScores f userMetrics allUsersMetrics).gasScore * WEIGHTS.gas +
          (calculateComponentScores f userMetrics allUsersMetrics).transactionScore * WEIGHTS.transactions +
          (calculateComponentScores f userMetrics allUsersMetrics).nftScore * WEIGHTS.nft +
          (calculateComponentScores f userMetrics allUsersMetrics).daysActiveScore * WEIGHTS.daysActive +
          (calculateComponentScores f userMetrics allUsersMetrics).streakScore * WEIGHTS.streak +
          (calculateComponentScores f userMetrics allUsersMetrics).day1BonusScore * WEIGHTS.day1Bonus)| ≤
      1 / 100 := by
  have ev : (calculateComponentScores f userMetrics allUsersMetrics).volumeScore =
      normalizeToPercentile f userMetrics.totalVolume
        (allUsersMetrics.map (fun u => u.totalVolume)) true := rfl
  have eg : (calculateComponentScores f userMetrics allUsersMetrics).gasScore =
      normalizeToPercentile f userMetrics.gasSpentMON
        (allUsersMetrics.map (fun u => u.gasSpentMON)) true := rfl
  have et : (calculateComponentScores f userMetrics allUsersMetrics).transactionScore =
      normalizeToPercentile f (userMetrics.txCount : ℚ)
        (allUsersMetrics.map (fun u => (u.txCount : ℚ))) false := rfl
  have en : (calculateComponentScores f userMetrics allUsersMetrics).nftScore =
      normalizeToPercentile f userMetrics.nftBagValue
        (allUsersMetrics.map (fun u => u.nftBagValue)) true := rfl
  have ed : (calculateComponentScores f userMetrics allUsersMetrics).daysActiveScore =
      normalizeToPercentile f (userMetrics.daysActive : ℚ)
        (allUsersMetrics.map (fun u => (u.daysActive : ℚ))) false := rfl
  have es : (calculateComponentScores f userMetrics allUsersMetrics).streakScore =
      normalizeToPercentile f (userMetrics.longestStreak : ℚ)
        (allUsersMetrics.map (fun u => (u.longestStreak : ℚ))) false := rfl
  have e1 : (calculateComponentScores f userMetrics allUsersMetrics).day1BonusScore =
      (if userMetrics.isDay1User then (100 : ℚ) else 0) := rfl
  have etot : (calculateComponentScores f userMetrics allUsersMetrics).totalScore =
      round2
        ((calculateComponentScores f userMetrics allUsersMetrics).volumeScore * WEIGHTS.volume +
          (calculateComponentScores f userMetrics allUsersMetrics).gasScore * WEIGHTS.gas +
          (calculateComponentScores f userMetrics allUsersMetrics).transactionScore * WEIGHTS.transactions +
          (calculateComponentScores f userMetrics allUsersMetrics).nftScore * WEIGHTS.nft +
          (calculateComponentScores f userMetrics allUsersMetrics).daysActiveScore * WEIGHTS.daysActive +
          (calculateComponentScores f userMetrics allUsersMetrics).streakScore * WEIGHTS.streak +
          (calculateComponentScores f userMetrics allUsersMetrics).day1BonusScore * WEIGHTS.day1Bonus) := rfl
  have hv := And.intro
    (ev ▸ normalizeToPercentile_nonneg f userMetrics.totalVolume _ true)
    (ev ▸ normalizeToPercentile_le_100 f userMetrics.totalVolume _ true)
  have hg := And.intro
    (eg ▸ normalizeToPercentile_nonneg f userMetrics.gasSpentMON _ true)
    (eg ▸ normalizeToPercentile_le_100 f userMetrics.gasSpentMON _ true)
  have ht := And.intro
    (et ▸ normalizeToPercentile_nonneg f (userMetrics.txCount : ℚ) _ false)
    (et ▸ normalizeToPercentile_le_100 f (userMetrics.txCount : ℚ) _ false)
  have hn := And.intro
    (en ▸ normalizeToPercentile_nonneg f userMetrics.nftBagValue _ true)
    (en ▸ normalizeToPercentile_le_100 f userMetrics.nftBagValue _ true)
  have hd := And.intro
    (ed ▸ normalizeToPercentile_nonneg f (userMetrics.daysActive : ℚ) _ false)
    (ed ▸ normalizeToPercentile_le_100 f (userMetrics.daysActive : ℚ) _ false)
  have hs := And.intro
    (es ▸ normalizeToPercentile_nonneg f (userMetrics.longestStreak : ℚ) _ false)
    (es ▸ normalizeToPercentile_le_100 f (userMetrics.longestStreak : ℚ) _ false)
  have h1 : 0 ≤ (calculateComponentScores f userMetrics allUsersMetrics).day1BonusScore ∧
      (calculateComponentScores f userMetrics allUsersMetrics).day1BonusScore ≤ 100 := by
    rw [e1]
    split <;> norm_num
  have hw : WEIGHTS.volume = 25 / 100 ∧ WEIGHTS.gas = 20 / 100 ∧
      WEIGHTS.transactions = 15 / 100 ∧ WEIGHTS.nft = 15 / 100 ∧
      WEIGHTS.daysActive = 10 / 100 ∧ WEIGHTS.streak = 10 / 100 ∧
      WEIGHTS.day1Bonus = 5 / 100 := ⟨rfl, rfl, rfl, rfl, rfl, rfl, rfl⟩
  obtain ⟨hw1, hw2, hw3, hw4, hw5, hw6, hw7⟩ := hw
  refine ⟨rfl, by rw [hw1, hw2, hw3, hw4, hw5, hw6, hw7]; norm_num, ⟨?_, ?_⟩, ?_⟩
  · rw [etot]
    apply round2_nonneg
    rw [hw1, hw2, hw3, hw4, hw5, hw6, hw7]
    have := hv.1; have := hg.1; have := ht.1; have := hn.1
    have := hd.1; have := hs.1; have := h1.1
    linarith
  · rw [etot]
    apply round2_le_100
    rw [hw1, hw2, hw3, hw4, hw5, hw6, hw7]
    have := hv.2; have := hg.2; have := ht.2; have := hn.2
    have := hd.2; have := hs.2; have := h1.2
    linarith
  · rw [etot]
    exact abs_round2_sub.trans (by norm_num)

/-! Metric extractor: gas spent (src/unnamed/part_008, calculateGasSpent). -/

/-- Transaction fields used by the metric extractor; string fields parsed
with parseInt in the source become integers here. -/
structure EtherTx where
  timeStamp : ℤ
  value : ℕ
  gas : ℕ
  gasPrice : ℕ

/-- Launch-epoch cutoff: unix seconds of 2025-02-19T00:00:00Z, the value of
getLaunchDate in src/src/lib/utils.ts. -/
def launchDate : ℤ := 1739923200

/-- Embedding of calculateGasSpent: a fold over the fetched transactions
that skips every transaction whose timestamp is before the launch epoch and
otherwise adds gas * gasPrice / 10^18. -/
def calculateGasSpent (transactions : List EtherTx) : ℚ :=
  transactions.foldl
    (fun total tx =>
      if tx.timeStamp < launchDate then total
      else total + (tx.gas : ℚ) * (tx.gasPrice : ℚ) / 10 ^ 18)
    0

/-- Definition following the words of the spec sentence for claim C2: the
sum over all fetched transactions, with no launch-epoch filter, of
gasUsed * gasPrice / 10^18. -/
def specGasSpentAllTxs (transactions : List EtherTx) : ℚ :=
  (transactions.map (fun tx => (tx.gas : ℚ) * (tx.gasPrice : ℚ) / 10 ^ 18)).sum

theorem calculateGasSpent_foldl (transactions : List EtherTx) :
    ∀ acc : ℚ,
      transactions.foldl
        (fun total tx =>
          if tx.timeStamp < launchDate then total
          else total + (tx.gas : ℚ) * (tx.gasPrice : ℚ) / 10 ^ 18)
        acc =
      acc + specGasSpentAllTxs
        (transactions.filter (fun tx => decide (launchDate ≤ tx.timeStamp))) := by
  induction transactions with
  | nil => intro acc; simp [specGasSpentAllTxs]
  | cons tx rest ih =>
      intro acc
      by_cases h : tx.timeStamp < launchDate
      · have hfilter : decide (launchDate ≤ tx.timeStamp) = false := by
          simp [not_le.mpr h]
        simp only [List.foldl_cons, List.filter_cons, hfilter, if_pos h,
          Bool.false_eq_true, if_false]
        exact ih acc
      · have hfilter : decide (launchDate ≤ tx.timeStamp) = true := by
          simp [not_lt.mp h]
        simp only [List.foldl_cons, List.filter_cons, hfilter, if_neg h, if_true,
          specGasSpentAllTxs, List.map_cons, List.sum_cons]
        rw [ih]
        simp only [specGasSpentAllTxs]
        ring

/-- Claim C2 (amended): gasSpentMON equals the sum of
gasUsed * gasPrice / 10^18 over the fetched transactions whose timestamp is
at or after the launch epoch; calculateGasSpent applies the epoch filter
internally (the claim asserts no epoch filter is applied). -/
theorem claim2_gas_epoch_filtered (transactions : List EtherTx) :
    calculateGasSpent transactions =
      specGasSpentAllTxs
        (transactions.filter (fun tx => decide (launchDate ≤ tx.timeStamp))) := by
  have h := calculateGasSpent_foldl transactions 0
  rw [calculateGasSpent, h, zero_add]

/-- Transaction used by the counterexample for claim C2: one second-zero
transaction, well before the launch epoch, burning exactly one MON of gas. -/
def preLaunchTx : EtherTx :=
  { timeStamp := 0, value := 0, gas := 1, gasPrice := 10 ^ 18 }

/-- Counterexample to claim C2 as stated: for a single fetched transaction
dated before the launch epoch, the sum over all fetched transactions is 1
MON, but calculateGasSpent returns 0 because it skips pre-launch
transactions. -/
theorem claim2_counterexample :
    preLaunchTx.timeStamp < launchDate ∧
    specGasSpentAllTxs [preLaunchTx] = 1 ∧
    calculateGasSpent [preLaunchTx] = 0 := by
  refine ⟨by norm_num [preLaunchTx, launchDate], ?_, ?_⟩
  · norm_num [specGasSpentAllTxs, preLaunchTx]
  · norm_num [calculateGasSpent, preLaunchTx, launchDate]

/-! NFT valuation sanitizer (src/unnamed/part_008, lines 753-1000). -/

/-- Per-collection snapshot fields consumed by the sanitizer: token
standard (erc1155 or not), 7-day floor-sale price, 7-day trading volume,
nominal collection size, and the wallet's holding count. -/
structure MagicEdenCollection where
  contractKind1155 : Bool
  floorSale7 : ℚ
  volume7 : ℚ
  tokenCount : ℕ
  ownershipTokenCount : ℕ

/-- Heuristic thresholds of the NFT_VALIDATION constant object. -/
structure NFTValidationConfig where
  MIN_FLOOR_PRICE : ℚ
  MAX_HOLDINGS_MULTIPLIER : ℚ
  MIN_TRADING_VOLUME : ℚ
  SUSPICIOUS_HOLDINGS_THRESHOLD : ℕ
  MIN_COLLECTION_SIZE : ℕ
  MAX_VALUE_PER_COLLECTION : ℚ
  ERC1155_MAX_HOLDINGS : ℕ
  ERC1155_SUSPICIOUS_THRESHOLD : ℕ

/-- Values of the NFT_VALIDATION constant object in the source. -/
def NFT_VALIDATION : NFTValidationConfig :=
  { MIN_FLOOR_PRICE := 1 / 1000
    MAX_HOLDINGS_MULTIPLIER := 1000
    MIN_TRADING_VOLUME := 1 / 100
    SUSPICIOUS_HOLDINGS_THRESHOLD := 10000
    MIN_COLLECTION_SIZE := 10
    MAX_VALUE_PER_COLLECTION := 1000000
    ERC1155_MAX_HOLDINGS := 100000
    ERC1155_SUSPICIOUS_THRESHOLD := 10000 }

/-- Result of validateNFTCollection; the reason string and logging of the
source carry no numeric content and are omitted. -/
structure NFTValidationResult where
  isValid : Bool
  adjustedValue : ℚ

/-- Embedding of validateNFTCollection: six sequential checks; any failure
zeroes the contribution, success contributes floorPrice * holdingCount.
The walletAddress parameter, used only for logging, is omitted. -/
def validateNFTCollection (collection : MagicEdenCollection)
    (sevenDayFloorSale : ℚ) (holdingItems : ℕ) : NFTValidationResult :=
  let rawValue := sevenDayFloorSale * (holdingItems : ℚ)
  let isERC1155 := collection.contractKind1155
  if sevenDayFloorSale < NFT_VALIDATION.MIN_FLOOR_PRICE then
    { isValid := false, adjustedValue := 0 }
  else
    let holdingsThreshold :=
      if isERC1155 then NFT_VALIDATION.ERC1155_SUSPICIOUS_THRESHOLD
      else NFT_VALIDATION.SUSPICIOUS_HOLDINGS_THRESHOLD
    if holdingsThreshold < holdingItems then
      { isValid := false, adjustedValue := 0 }
    else
      let sevenDayVolume := collection.volume7
      if 0 < sevenDayVolume ∧ sevenDayVolume < NFT_VALIDATION.MIN_TRADING_VOLUME then
        { isValid := false, adjustedValue := 0 }
      else
        let collectionSize := collection.tokenCount
        if isERC1155 = false ∧ 0 < collectionSize ∧
            NFT_VALIDATION.MAX_HOLDINGS_MULTIPLIER <
              (holdingItems : ℚ) / (collectionSize : ℚ) then
          { isValid := false, adjustedValue := 0 }
        else if isERC1155 = false ∧ 0 < collectionSize ∧
            collectionSize < NFT_VALIDATION.MIN_COLLECTION_SIZE then
          { isValid := false, adjustedValue := 0 }
        else if NFT_VALIDATION.MAX_VALUE_PER_COLLECTION < rawValue then
          { isValid := false, adjustedValue := 0 }
        else
          { isValid := true, adjustedValue := rawValue }

/-- Embedding of the aggregation loop of the validated fetchNFTBagValue
variant (part_008 lines 939-1000): sum the accepted contributions (a
missing ownership count is defaulted to 1 by the JS or-1 idiom, so 0 maps
to 1) and cap the wallet total at 10,000,000 MON. -/
def fetchNFTBagValue (collections : List MagicEdenCollection) : ℚ :=
  let totalValue := collections.foldl
    (fun total collection =>
      let sevenDayFloorSale := collection.floorSale7
      let holdingItems :=
        if collection.ownershipTokenCount = 0 then 1
        else collection.ownershipTokenCount
      let validation := validateNFTCollection collection sevenDayFloorSale holdingItems
      if validation.isValid then total + validation.adjustedValue else total)
    0
  let maxTotalValue : ℚ := 10000000
  if maxTotalValue < totalValue then maxTotalValue else totalValue

/-- Claim C9: a collection whose 7-day floor price is below the configured
minimum contributes exactly 0 regardless of its holding count, and the
wallet total returned by the sanitizing fetchNFTBagValue never exceeds the
configured global ceiling of 10,000,000 MON. -/
theorem claim9_nft_sanitizer :
    (∀ (collection : MagicEdenCollection) (holdingItems : ℕ),
        collection.floorSale7 < NFT_VALIDATION.MIN_FLOOR_PRICE →
        validateNFTCollection collection collection.floorSale7 holdingItems =
          { isValid := false, adjustedValue := 0 }) ∧
    ∀ collections : List MagicEdenCollection,
      fetchNFTBagValue collections ≤ 10000000 := by
  constructor
  · intro collection holdingItems hfloor
    unfold validateNFTCollection
    rw [if_pos hfloor]
  · intro collections
    unfold fetchNFTBagValue
    dsimp only
    split
    · exact le_refl _
    · next h => exact le_of_not_lt h

/-- Collection used by the witness for claim C9: zero floor price. -/
def dustCollection : MagicEdenCollection :=
  { contractKind1155 := false
    floorSale7 := 0
    volume7 := 0
    tokenCount := 100
    ownershipTokenCount := 5 }

/-- Witness for claim C9: a zero-floor-price collection is rejected with
contribution 0 even at a holding count of 999999. -/
theorem claim9_witness :
    validateNFTCollection dustCollection dustCollection.floorSale7 999999 =
      { isValid := false, adjustedValue := 0 } :=
  claim9_nft_sanitizer.1 dustCollection 999999
    (by norm_num [dustCollection, NFT_VALIDATION])

/-! Leaderboard ranker (src/src/app/api/leaderboard/route.ts). -/

/-- Stored wallet record fields selected by the leaderboard query. -/
structure UserRec where
  walletAddress : String
  txCount : ℕ
  gasSpentMON : ℚ
  totalVolume : ℚ
  nftBagValue : ℚ
  isDay1User : Bool
  longestStreak : ℕ
  daysActive : ℕ
  totalScore : ℚ
  volumeScore : ℚ
  gasScore : ℚ
  transactionScore : ℚ
  nftScore : ℚ
  daysActiveScore : ℚ
  streakScore : ℚ
  day1BonusScore : ℚ

/-- Valid sort fields of the route (line 37). -/
def validSortFields : List String :=
  ["totalScore", "totalVolume", "gasSpentMON", "txCount", "nftBagValue",
   "daysActive", "longestStreak"]

/-- Valid sort directions of the route (line 38). -/
def validSortOrders : List String := ["asc", "desc"]

/-- Numeric sort key selected by the dynamic orderBy clause. -/
def sortKeyVal (sortBy : String) (u : UserRec) : ℚ :=
  if sortBy = "totalVolume" then u.totalVolume
  else if sortBy = "gasSpentMON" then u.gasSpentMON
  else if sortBy = "txCount" then (u.txCount : ℚ)
  else if sortBy = "nftBagValue" then u.nftBagValue
  else if sortBy = "daysActive" then (u.daysActive : ℚ)
  else if sortBy = "longestStreak" then (u.longestStreak : ℚ)
  else u.totalScore

/-- Datastore ordering (prisma orderBy), modelled as a stable sort by the
requested field in the requested direction. -/
def orderUsers (sortBy sortOrder : String) (l : List UserRec) : List UserRec :=
  if sortOrder = "asc" then
    l.mergeSort (fun a b => decide (sortKeyVal sortBy a ≤ sortKeyVal sortBy b))
  else
    l.mergeSort (fun a b => decide (sortKeyVal sortBy b ≤ sortKeyVal sortBy a))

/-- Case-insensitive substring filter on the wallet address (the prisma
contains/insensitive where-clause); an empty search keeps every record. -/
def matchesSearch (search : String) (u : UserRec) : Bool :=
  if search = "" then true
  else decide (search.toLower.data <:+: u.walletAddress.toLower.data)

/-- One visible leaderboard entry: display position and record. -/
structure LBEntry where
  userNumber : ℕ
  user : UserRec

/-- Pagination metadata of the response. -/
structure LBPagination where
  currentPage : ℕ
  pageSize : ℕ
  totalUsers : ℕ
  totalPages : ℤ
  hasNextPage : Bool
  hasPreviousPage : Bool

/-- Response body of the leaderboard route. -/
structure LBResponse where
  leaderboard : List LBEntry
  pagination : LBPagination

/-- Embedding of the GET handler of the leaderboard route: validate the
sort parameters (400 on failure, before looking at the datastore), filter
by search, count, sort, paginate with skip = (page - 1) * pageSize, number
the page entries skip + index + 1, and report Math.ceil-based page counts
and previous/next flags. -/
def leaderboardGET (db : List UserRec) (page pageSize : ℕ)
    (search sortBy sortOrder : String) : Except ℕ LBResponse :=
  if sortBy ∉ validSortFields then Except.error 400
  else if sortOrder ∉ validSortOrders then Except.error 400
  else
    let skip := (page - 1) * pageSize
    let filtered := db.filter (matchesSearch search)
    let totalUsers := filtered.length
    let users := ((orderUsers sortBy sortOrder filtered).drop skip).take pageSize
    let leaderboard :=
      users.mapIdx (fun index user => { userNumber := skip + index + 1, user := user })
    let totalPages : ℤ := ⌈(totalUsers : ℚ) / (pageSize : ℚ)⌉
    Except.ok
      { leaderboard := leaderboard
        pagination :=
          { currentPage := page
            pageSize := pageSize
            totalUsers := totalUsers
            totalPages := totalPages
            hasNextPage := decide ((page : ℤ) < totalPages)
            hasPreviousPage := decide (1 < page) } }

/-- Sort fields the spec allows: the seven raw metrics and totalScore.
Definition written from the spec for the hypothesis of claim C6. -/
def specSortFields : List String :=
  ["totalScore", "txCount", "gasSpentMON", "totalVolume", "nftBagValue",
   "isDay1User", "longestStreak", "daysActive"]

/-- Claim C6: a request whose sort field is outside the spec's eight
sortable fields, or whose sort direction is not asc/desc, is answered with
a 400 error; the result is the same for every datastore content, so no
datastore query is observable. -/
theorem claim6_invalid_sort_rejected (db : List UserRec) (page pageSize : ℕ)
    (search sortBy sortOrder : String)
    (h : sortBy ∉ specSortFields ∨ sortOrder ∉ validSortOrders) :
    leaderboardGET db page pageSize search sortBy sortOrder =
      Except.error 400 := by
  by_cases hfield : sortBy ∈ validSortFields
  · have hspec : sortBy ∈ specSortFields := by
      simp only [validSortFields, List.mem_cons, List.mem_singleton,
        List.not_mem_nil, or_false] at hfield
      simp only [specSortFields, List.mem_cons, List.mem_singleton]
      tauto
    rcases h with h | h
    · exact absurd hspec h
    · unfold leaderboardGET
      rw [if_neg (by simpa using hfield), if_pos h]
  · unfold leaderboardGET
    rw [if_pos hfield]

/-- Witness for claim C6: the sort field volumeScore (a component score,
not a raw metric and not totalScore) is rejected with a 400 error on an
empty datastore. -/
theorem claim6_witness :
    leaderboardGET [] 1 100 "" "volumeScore" "desc" = Except.error 400 :=
  claim6_invalid_sort_rejected [] 1 100 "" "volumeScore" "desc"
    (Or.inl (by decide))

/-- Claim C5: in an accepted leaderboard page, the entry at zero-based
index i carries position number (page - 1) * pageSize + i + 1 and is the
record at that offset in the full sorted, filtered result set, the page
count is the ceiling of totalMatching / pageSize, and the next/previous
flags are page < totalPages and page > 1. -/
theorem claim5_pagination (db : List UserRec) (page pageSize : ℕ)
    (search sortBy sortOrder : String) (resp : LBResponse)
    (hok : leaderboardGET db page pageSize search sortBy sortOrder = Except.ok resp)
    (hpage : 1 ≤ page) (hsize : 0 < pageSize) :
    (∀ i (h : i < resp.leaderboard.length),
        (resp.leaderboard.get ⟨i, h⟩).userNumber = (page - 1) * pageSize + i + 1 ∧
        (orderUsers sortBy sortOrder
            (db.filter (matchesSearch search)))[(page - 1) * pageSize + i]? =
          some (resp.leaderboard.get ⟨i, h⟩).user) ∧
    resp.pagination.totalPages =
      ⌈((db.filter (matchesSearch search)).length : ℚ) / (pageSize : ℚ)⌉ ∧
    (resp.pagination.hasNextPage = true ↔ (page : ℤ) < resp.pagination.totalPages) ∧
    (resp.pagination.hasPreviousPage = true ↔ 1 < page) := by
  simp only [leaderboardGET] at hok
  split at hok
  · exact absurd hok (by simp)
  · split at hok
    · exact absurd hok (by simp)
    · rw [Except.ok.injEq] at hok
      subst hok
      refine ⟨?_, rfl, ?_, ?_⟩
      · intro i h
        simp only [List.length_mapIdx, List.length_take, List.length_drop] at h
        have hisort : (page - 1) * pageSize + i <
            (orderUsers sortBy sortOrder (db.filter (matchesSearch search))).length := by
          omega
        constructor
        · rw [List.get_eq_getElem]
          simp only [List.getElem_mapIdx]
        · rw [List.get_eq_getElem]
          simp only [List.getElem_mapIdx, List.getElem_take, List.getElem_drop]
          rw [List.getElem?_eq_getElem hisort]
      · simp only [decide_eq_true_eq]
      · simp only [decide_eq_true_eq]

/-- Record used by the witnesses for the leaderboard claims. -/
def dummyUser : UserRec :=
  { walletAddress := "0xabc"
    txCount := 0
    gasSpentMON := 0
    totalVolume := 0
    nftBagValue := 0
    isDay1User := false
    longestStreak := 0
    daysActive := 0
    totalScore := 0
    volumeScore := 0
    gasScore := 0
    transactionScore := 0
    nftScore := 0
    daysActiveScore := 0
    streakScore := 0
    day1BonusScore := 0 }

/-- Response produced for a single-record datastore on page 1. -/
def claim5Resp : LBResponse :=
  { leaderboard := [{ userNumber := 1, user := dummyUser }]
    pagination :=
      { currentPage := 1
        pageSize := 100
        totalUsers := 1
        totalPages := 1
        hasNextPage := false
        hasPreviousPage := false } }

/-- Witness for claim C5 on a concrete single-record datastore. -/
theorem claim5_witness :
    claim5Resp.pagination.totalPages =
      ⌈((([dummyUser] : List UserRec).filter (matchesSearch "")).length : ℚ) /
        (100 : ℚ)⌉ := by
  have hok : leaderboardGET [dummyUser] 1 100 "" "totalScore" "desc" =
      Except.ok claim5Resp := by
    have hceil : ⌈((100 : ℚ))⁻¹⌉ = 1 := by
      rw [Int.ceil_eq_iff]
      norm_num
    simp [leaderboardGET, validSortFields, validSortOrders, orderUsers,
      matchesSearch, claim5Resp, List.mapIdx_cons, hceil]
  exact (claim5_pagination [dummyUser] 1 100 "" "totalScore" "desc" claim5Resp
    hok (le_refl 1) (by norm_num)).2.1

/-! Metric extractor: longest streak (src/unnamed/part_008,
calculateLongestStreak). -/

/-- UTC calendar day of a unix-seconds timestamp, the day index behind the
YYYY-MM-DD string the source computes with toISOString.  Only applied to
post-epoch (hence positive) timestamps, where truncating division agrees
with flooring. -/
def dayOf (t : ℤ) : ℤ := t / 86400

/-- Distinct-or-not list of post-epoch activity days of a transaction
timestamp list: the days the forEach loop of calculateLongestStreak feeds
into its day set. -/
def postDays (transactions : List ℤ) : List ℤ :=
  (transactions.filter (fun t => decide (launchDate ≤ t))).map dayOf

/-- The scan loop of calculateLongestStreak: walk the sorted distinct days,
extend the current streak on a day-to-day delta of exactly 1, otherwise
fold the current streak into the longest and restart at 1; the final
longest is the maximum of the two accumulators. -/
def streakLoop : ℤ → ℕ → ℕ → List ℤ → ℕ
  | _, currentStreak, longestStreak, [] => max currentStreak longestStreak
  | prev, currentStreak, longestStreak, d :: rest =>
      if d - prev = 1 then streakLoop d (currentStreak + 1) longestStreak rest
      else streakLoop d 1 (max currentStreak longestStreak) rest

/-- Embedding of calculateLongestStreak: empty input gives 0, otherwise
dedup and ascending-sort the post-epoch activity days (the JS Set plus
lexicographic date-string sort), return 0 for no surviving day, 1 for a
single day, else run the scan loop from the first day. -/
def calculateLongestStreak (transactions : List ℤ) : ℕ :=
  if transactions.isEmpty then 0
  else
    let sortedDays := ((postDays transactions).dedup).mergeSort
    match sortedDays with
    | [] => 0
    | [_] => 1
    | d0 :: d1 :: rest => streakLoop d0 1 1 (d1 :: rest)

/-- Maximality invariant of the scan loop: no run of consecutive days
inside the day set exceeds the returned streak. -/
theorem streakLoop_ge (S : List ℤ) :
    ∀ (l : List ℤ) (prev : ℤ) (cur best : ℕ),
      (prev :: l).Sorted (· < ·) →
      (∀ x ∈ S, prev < x → x ∈ l) →
      (∀ x ∈ l, x ∈ S) →
      (∀ (d : ℤ) (n : ℕ), 0 < n → (∀ k : ℕ, k < n → (d + (k : ℤ)) ∈ S) →
        d + (n : ℤ) - 1 = prev → n ≤ cur) →
      (∀ (d : ℤ) (n : ℕ), 0 < n → (∀ k : ℕ, k < n → (d + (k : ℤ)) ∈ S) →
        d + (n : ℤ) - 1 ≤ prev → n ≤ max cur best) →
      ∀ (d : ℤ) (n : ℕ), (∀ k : ℕ, k < n → (d + (k : ℤ)) ∈ S) →
        n ≤ streakLoop prev cur best l := by
  intro l
  induction l with
  | nil =>
      intro prev cur best _ hS _ _ hM d n hrun
      rcases Nat.eq_zero_or_pos n with hn | hn
      · simp [streakLoop, hn]
      · have hlastmem : (d + (n : ℤ) - 1) ∈ S := by
          have hmem := hrun (n - 1) (by omega)
          have heq : d + ((n - 1 : ℕ) : ℤ) = d + (n : ℤ) - 1 := by
            push_cast [Nat.cast_sub hn]
            ring
          rwa [heq] at hmem
        simp only [streakLoop]
        by_cases hle : d + (n : ℤ) - 1 ≤ prev
        · exact hM d n hn hrun hle
        · exact absurd (hS _ hlastmem (by omega)) (List.not_mem_nil _)
  | cons dh rest ih =>
      intro prev cur best hsort hS hl hcur hM d n hrun
      have hprevdh : prev < dh := (List.sorted_cons.mp hsort).1 dh
        (List.mem_cons_self dh rest)
      have hsort' : (dh :: rest).Sorted (· < ·) := (List.sorted_cons.mp hsort).2
      have hdhrest : ∀ x ∈ rest, dh < x := (List.sorted_cons.mp hsort').1
      have hS' : ∀ x ∈ S, dh < x → x ∈ rest := by
        intro x hx hdx
        have := hS x hx (by omega)
        rcases List.mem_cons.mp this with h | h
        · omega
        · exact h
      have hl' : ∀ x ∈ rest, x ∈ S := fun x hx =>
        hl x (List.mem_cons_of_mem dh hx)
      simp only [streakLoop]
      by_cases h1 : dh - prev = 1
      · rw [if_pos h1]
        apply ih dh (cur + 1) best hsort' hS' hl' _ _ d n hrun
        · -- runs ending exactly at dh are bounded by cur + 1
          intro e m hm hrune hend
          rcases Nat.lt_or_ge m 2 with hm2 | hm2
          · omega
          · have hrune' : ∀ k : ℕ, k < m - 1 → (e + (k : ℤ)) ∈ S := fun k hk =>
              hrune k (by omega)
            have hend' : e + ((m - 1 : ℕ) : ℤ) - 1 = prev := by
              push_cast [Nat.cast_sub (by omega : 1 ≤ m)]
              omega
            have := hcur e (m - 1) (by omega) hrune' hend'
            omega
        · -- runs ending at or before dh are bounded by max (cur + 1) best
          intro e m hm hrune hend
          by_cases hle : e + (m : ℤ) - 1 ≤ prev
          · have := hM e m hm hrune hle
            have hmx : max cur best ≤ max (cur + 1) best := by
              apply max_le_max _ (le_refl best)
              omega
            omega
          · have hend2 : e + (m : ℤ) - 1 = dh := by omega
            rcases Nat.lt_or_ge m 2 with hm2 | hm2
            · have : m = 1 := by omega
              omega
            · have hrune' : ∀ k : ℕ, k < m - 1 → (e + (k : ℤ)) ∈ S := fun k hk =>
                hrune k (by omega)
              have hend' : e + ((m - 1 : ℕ) : ℤ) - 1 = prev := by
                push_cast [Nat.cast_sub (by omega : 1 ≤ m)]
                omega
              have := hcur e (m - 1) (by omega) hrune' hend'
              have : m ≤ cur + 1 := by omega
              omega
      · rw [if_neg h1]
        have hgap : prev + 1 < dh := by omega
        apply ih dh 1 (max cur best) hsort' hS' hl' _ _ d n hrun
        · -- a run ending exactly at dh cannot reach back across the gap
          intro e m hm hrune hend
          rcases Nat.lt_or_ge m 2 with hm2 | hm2
          · omega
          · exfalso
            have hmem := hrune (m - 2) (by omega)
            have heq : e + ((m - 2 : ℕ) : ℤ) = dh - 1 := by
              push_cast [Nat.cast_sub (by omega : 2 ≤ m)]
              omega
            rw [heq] at hmem
            have hgt : prev < dh - 1 := by omega
            have := hS' (dh - 1)
            have hmem2 := hS (dh - 1) hmem hgt
            rcases List.mem_cons.mp hmem2 with h | h
            · omega
            · have := hdhrest _ h
              omega
        · -- runs ending at or before dh
          intro e m hm hrune hend
          by_cases hle : e + (m : ℤ) - 1 ≤ prev
          · have := hM e m hm hrune hle
            have : m ≤ max cur best := this
            have hmx : max cur best ≤ max 1 (max cur best) := le_max_right _ _
            omega
          · -- the run ends strictly after prev: its last day is in dh :: rest
            have hlastmem : (e + (m : ℤ) - 1) ∈ S := by
              have hmem := hrune (m - 1) (by omega)
              have heq : e + ((m - 1 : ℕ) : ℤ) = e + (m : ℤ) - 1 := by
                push_cast [Nat.cast_sub hm]
                ring
              rwa [heq] at hmem
            have hmem2 := hS _ hlastmem (by omega)
            have henddh : e + (m : ℤ) - 1 = dh := by
              rcases List.mem_cons.mp hmem2 with h | h
              · omega
              · have := hdhrest _ h
                omega
            rcases Nat.lt_or_ge m 2 with hm2 | hm2
            · have : m = 1 := by omega
              have : m ≤ max 1 (max cur best) := by
                have := le_max_left 1 (max cur best)
                omega
              omega
            · exfalso
              have hmem3 := hrune (m - 2) (by omega)
              have heq : e + ((m - 2 : ℕ) : ℤ) = dh - 1 := by
                push_cast [Nat.cast_sub (by omega : 2 ≤ m)]
                omega
              rw [heq] at hmem3
              have hgt : prev < dh - 1 := by omega
              have hmem4 := hS (dh - 1) hmem3 hgt
              rcases List.mem_cons.mp hmem4 with h | h
              · omega
              · have := hdhrest _ h
                omega

/-- Achievability invariant of the scan loop: the returned streak is the
length of some run of consecutive days inside the day set. -/
theorem streakLoop_achieved (S : List ℤ) :
    ∀ (l : List ℤ) (prev : ℤ) (cur best : ℕ),
      (∀ x ∈ l, x ∈ S) →
      0 < cur →
      (∀ k : ℕ, k < cur → (prev - (cur : ℤ) + 1 + (k : ℤ)) ∈ S) →
      (∃ e : ℤ, ∀ k : ℕ, k < best → (e + (k : ℤ)) ∈ S) →
      ∃ e : ℤ, ∀ k : ℕ, k < streakLoop prev cur best l → (e + (k : ℤ)) ∈ S := by
  intro l
  induction l with
  | nil =>
      intro prev cur best _ hcur0 hcurrun hbest
      simp only [streakLoop]
      rcases max_choice cur best with h | h
      · rw [h]
        refine ⟨prev - (cur : ℤ) + 1, fun k hk => ?_⟩
        have := hcurrun k hk
        have heq : prev - (cur : ℤ) + 1 + (k : ℤ) =
            prev - (cur : ℤ) + 1 + (k : ℤ) := rfl
        exact this
      · rw [h]
        exact hbest
  | cons dh rest ih =>
      intro prev cur best hl hcur0 hcurrun hbest
      have hdhS : dh ∈ S := hl dh (List.mem_cons_self dh rest)
      have hl' : ∀ x ∈ rest, x ∈ S := fun x hx =>
        hl x (List.mem_cons_of_mem dh hx)
      simp only [streakLoop]
      by_cases h1 : dh - prev = 1
      · rw [if_pos h1]
        apply ih dh (cur + 1) best hl' (by omega) _ hbest
        intro k hk
        rcases Nat.lt_or_ge k cur with hkc | hkc
        · have := hcurrun k hkc
          have heq : dh - ((cur + 1 : ℕ) : ℤ) + 1 + (k : ℤ) =
              prev - (cur : ℤ) + 1 + (k : ℤ) := by
            push_cast
            omega
          rwa [heq]
        · have hkeq : k = cur := by omega
          have heq : dh - ((cur + 1 : ℕ) : ℤ) + 1 + (k : ℤ) = dh := by
            subst hkeq
            push_cast
            ring
          rwa [heq]
      · rw [if_neg h1]
        apply ih dh 1 (max cur best) hl' (by omega) _ _
        · intro k hk
          have hkeq : k = 0 := by omega
          have heq : dh - ((1 : ℕ) : ℤ) + 1 + (k : ℤ) = dh := by
            subst hkeq
            push_cast
            ring
          rwa [heq]
        · rcases max_choice cur best with h | h
          · rw [h]
            exact ⟨prev - (cur : ℤ) + 1, fun k hk => hcurrun k hk⟩
          · rw [h]
            exact hbest

/-- Claim C7: calculateLongestStreak returns the length of the longest run
of consecutive calendar days among the distinct post-epoch activity days:
no such run is longer than the result, the result itself is realized by a
run, and the result is 0 exactly when no post-epoch activity day exists
(hence 1 for a single active day, and 3 for active days D, D+1, D+2, D+5). -/
theorem claim7_longest_streak (transactions : List ℤ) :
    (∀ (d : ℤ) (n : ℕ),
        (∀ k : ℕ, k < n → (d + (k : ℤ)) ∈ postDays transactions) →
        n ≤ calculateLongestStreak transactions) ∧
    (∃ d : ℤ, ∀ k : ℕ, k < calculateLongestStreak transactions →
        (d + (k : ℤ)) ∈ postDays transactions) ∧
    (calculateLongestStreak transactions = 0 ↔ postDays transactions = []) := by
  by_cases hemp : transactions.isEmpty = true
  · have htx : transactions = [] := List.isEmpty_iff.mp hemp
    subst htx
    have h0 : calculateLongestStreak [] = 0 := rfl
    have hpd : postDays [] = [] := rfl
    refine ⟨fun d n hrun => ?_, ⟨0, fun k hk => ?_⟩, by rw [h0, hpd]; simp⟩
    · rw [h0]
      rcases Nat.eq_zero_or_pos n with hn | hn
      · omega
      · have := hrun 0 hn
        rw [hpd] at this
        exact absurd this (List.not_mem_nil _)
    · rw [h0] at hk
      omega
  · have hmemiff : ∀ x : ℤ,
        x ∈ ((postDays transactions).dedup).mergeSort ↔ x ∈ postDays transactions :=
      fun x => (List.mergeSort_perm _ _).mem_iff.trans List.mem_dedup
    have hsortedle : (((postDays transactions).dedup).mergeSort).Sorted (· ≤ ·) :=
      List.sorted_mergeSort' _
    have hnd : (((postDays transactions).dedup).mergeSort).Nodup :=
      (List.mergeSort_perm _ _).nodup_iff.mpr (List.nodup_dedup _)
    have hsortlt : (((postDays transactions).dedup).mergeSort).Sorted (· < ·) :=
      hsortedle.lt_of_le hnd
    rcases hds : ((postDays transactions).dedup).mergeSort with _ | ⟨d0, dtail⟩
    · -- no surviving activity day
      have hcalc : calculateLongestStreak transactions = 0 := by
        simp only [calculateLongestStreak, hds]
        rw [if_neg hemp]
      have hpd : postDays transactions = [] := by
        have hperm := List.mergeSort_perm ((postDays transactions).dedup)
          (fun a b => a ≤ b)
        rw [hds] at hperm
        have hded : (postDays transactions).dedup = [] := hperm.symm.eq_nil
        exact (List.dedup_eq_nil _).mp hded
      refine ⟨fun d n hrun => ?_, ⟨0, fun k hk => ?_⟩, by rw [hcalc, hpd]; simp⟩
      · rw [hcalc]
        rcases Nat.eq_zero_or_pos n with hn | hn
        · omega
        · have := hrun 0 hn
          rw [hpd] at this
          exact absurd this (List.not_mem_nil _)
      · rw [hcalc] at hk
        omega
    · rcases dtail with _ | ⟨d1, rest⟩
      · -- a single surviving activity day
        have hcalc : calculateLongestStreak transactions = 1 := by
          simp only [calculateLongestStreak, hds]
          rw [if_neg hemp]
        have hmem0 : d0 ∈ postDays transactions := by
          rw [← hmemiff, hds]
          exact List.mem_singleton.mpr rfl
        have honly : ∀ x ∈ postDays transactions, x = d0 := by
          intro x hx
          have := (hmemiff x).mpr hx
          rw [hds] at this
          exact List.mem_singleton.mp this
        refine ⟨fun d n hrun => ?_, ⟨d0, fun k hk => ?_⟩, ?_⟩
        · rw [hcalc]
          by_contra hcon
          push_neg at hcon
          have h02 : 2 ≤ n := by omega
          have h1 := honly _ (hrun 0 (by omega))
          have h2 := honly _ (hrun 1 (by omega))
          push_cast at h1 h2
          omega
        · rw [hcalc] at hk
          have hk0 : k = 0 := by omega
          subst hk0
          simpa using hmem0
        · rw [hcalc]
          constructor
          · intro h; exact absurd h one_ne_zero
          · intro h
            rw [h] at hmem0
            exact absurd hmem0 (List.not_mem_nil _)
      · -- at least two surviving activity days
        have hcalc : calculateLongestStreak transactions =
            streakLoop d0 1 1 (d1 :: rest) := by
          simp only [calculateLongestStreak, hds]
          rw [if_neg hemp]
        rw [hds] at hsortlt
        have hmemiff' : ∀ x : ℤ,
            x ∈ (d0 :: d1 :: rest) ↔ x ∈ postDays transactions := by
          intro x
          rw [← hds]
          exact hmemiff x
        have hmin : ∀ x ∈ (d0 :: d1 :: rest), d0 ≤ x := by
          intro x hx
          rcases List.mem_cons.mp hx with h | h
          · omega
          · have := List.rel_of_sorted_cons hsortlt x h
            omega
        have hS : ∀ x ∈ postDays transactions, d0 < x → x ∈ d1 :: rest := by
          intro x hx hdx
          have := (hmemiff' x).mpr hx
          rcases List.mem_cons.mp this with h | h
          · omega
          · exact h
        have hl : ∀ x ∈ d1 :: rest, x ∈ postDays transactions := fun x hx =>
          (hmemiff' x).mp (List.mem_cons_of_mem d0 hx)
        have hmem0 : d0 ∈ postDays transactions :=
          (hmemiff' d0).mp (List.mem_cons_self d0 _)
        have hcur : ∀ (e : ℤ) (m : ℕ), 0 < m →
            (∀ k : ℕ, k < m → (e + (k : ℤ)) ∈ postDays transactions) →
            e + (m : ℤ) - 1 = d0 → m ≤ 1 := by
          intro e m hm hrune hend
          by_contra hcon
          push_neg at hcon
          have hm2 : 2 ≤ m := by omega
          have hmem := hrune (m - 2) (by omega)
          have heq : e + ((m - 2 : ℕ) : ℤ) = d0 - 1 := by
            push_cast [Nat.cast_sub hm2]
            omega
          rw [heq] at hmem
          have := hmin _ ((hmemiff' _).mpr hmem)
          omega
        have hM : ∀ (e : ℤ) (m : ℕ), 0 < m →
            (∀ k : ℕ, k < m → (e + (k : ℤ)) ∈ postDays transactions) →
            e + (m : ℤ) - 1 ≤ d0 → m ≤ max 1 1 := by
          intro e m hm hrune hend
          have hmem := hrune (m - 1) (by omega)
          have heq : e + ((m - 1 : ℕ) : ℤ) = e + (m : ℤ) - 1 := by
            push_cast [Nat.cast_sub hm]
            ring
          rw [heq] at hmem
          have hge := hmin _ ((hmemiff' _).mpr hmem)
          have hend2 : e + (m : ℤ) - 1 = d0 := by omega
          have := hcur e m hm hrune hend2
          omega
        constructor
        · intro d n hrun
          rw [hcalc]
          exact streakLoop_ge (postDays transactions) (d1 :: rest) d0 1 1
            hsortlt hS hl hcur hM d n hrun
        constructor
        · rw [hcalc]
          apply streakLoop_achieved (postDays transactions) (d1 :: rest) d0 1 1
            hl (by omega)
          · intro k hk
            have hk0 : k = 0 := by omega
            subst hk0
            have heq : d0 - ((1 : ℕ) : ℤ) + 1 + ((0 : ℕ) : ℤ) = d0 := by
              push_cast; ring
            rw [heq]
            exact hmem0
          · refine ⟨d0, fun k hk => ?_⟩
            have hk0 : k = 0 := by omega
            subst hk0
            simpa using hmem0
        · rw [hcalc]
          have hone : 1 ≤ streakLoop d0 1 1 (d1 :: rest) := by
            apply streakLoop_ge (postDays transactions) (d1 :: rest) d0 1 1
              hsortlt hS hl hcur hM d0 1
            intro k hk
            have hk0 : k = 0 := by omega
            subst hk0
            simpa using hmem0
          constructor
          · intro h; omega
          · intro h
            rw [h] at hmem0
            exact absurd hmem0 (List.not_mem_nil _)

/-- Witness for claim C7: four transactions on days D, D+1, D+2, D+5
(D being launch day 20138 since the unix epoch) give a streak of at least
3 by the run D, D+1, D+2. -/
theorem claim7_witness :
    3 ≤ calculateLongestStreak [1739923200, 1740009600, 1740096000, 1740355200] :=
  (claim7_longest_streak [1739923200, 1740009600, 1740096000, 1740355200]).1
    20138 3 (by decide)

/-! Metric extractor: daily history and days active (src/unnamed/part_008,
generateTransactionHistory; src/src/lib/prisma.ts, calculateDaysActive). -/

/-- One entry of the daily history series. -/
structure TransactionDataPoint where
  date : ℤ
  transactions : ℕ
  volume : ℚ
  gasSpent : ℚ

/-- Entry of the daily series for calendar day d: transaction count and
volume/gas sums over the post-epoch transactions of that day.  A day with
no transactions yields count 0 and zero sums, exactly the zero-valued
defaults the source inserts for dates absent from its grouping map. -/
def dayEntry (post : List EtherTx) (d : ℤ) : TransactionDataPoint :=
  { date := d
    transactions := (post.filter (fun tx => decide (dayOf tx.timeStamp = d))).length
    volume := ((post.filter (fun tx => decide (dayOf tx.timeStamp = d))).map
        (fun tx => (tx.value : ℚ) / 10 ^ 18)).sum
    gasSpent := ((post.filter (fun tx => decide (dayOf tx.timeStamp = d))).map
        (fun tx => (tx.gas : ℚ) * (tx.gasPrice : ℚ) / 10 ^ 18)).sum }

/-- Embedding of generateTransactionHistory: empty input gives an empty
series; otherwise group the post-epoch transactions by UTC day, and emit
one entry for every calendar day from the first to the last active day
inclusive (the gap-filling while loop), with zero-valued entries for
inactive days. -/
def generateTransactionHistory (transactions : List EtherTx) :
    List TransactionDataPoint :=
  if transactions.isEmpty then []
  else
    match (((transactions.filter (fun tx => decide (launchDate ≤ tx.timeStamp))).map
        (fun tx => dayOf tx.timeStamp)).dedup).mergeSort with
    | [] => []
    | d0 :: drest =>
        (List.range
            ((((d0 :: drest).getLast (List.cons_ne_nil d0 drest)) - d0 + 1).toNat)).map
          (fun i : ℕ => dayEntry
            (transactions.filter (fun tx => decide (launchDate ≤ tx.timeStamp)))
            (d0 + (i : ℤ)))

/-- Embedding of calculateDaysActive: count of history entries with a
positive transaction count. -/
def calculateDaysActive (transactionHistory : List TransactionDataPoint) : ℕ :=
  if transactionHistory.isEmpty then 0
  else (transactionHistory.filter (fun day => decide (0 < day.transactions))).length

/-- Every member of an ascending-sorted list is at most its last element. -/
theorem le_getLast_of_sorted :
    ∀ {l : List ℤ}, l.Sorted (· ≤ ·) → ∀ (h : l ≠ []) (x : ℤ), x ∈ l →
      x ≤ l.getLast h := by
  intro l
  induction l with
  | nil => intro _ h; exact absurd rfl h
  | cons a t ih =>
      intro hsort h x hx
      cases t with
      | nil =>
          have hxa : x = a := List.mem_singleton.mp hx
          rw [List.getLast_singleton, hxa]
      | cons b t2 =>
          have hrel := (List.sorted_cons.mp hsort).1
          have hsort' := (List.sorted_cons.mp hsort).2
          rw [List.getLast_cons (List.cons_ne_nil b t2)]
          rcases List.mem_cons.mp hx with rfl | hx'
          · exact hrel _ (List.getLast_mem (List.cons_ne_nil b t2))
          · exact ih hsort' (List.cons_ne_nil b t2) x hx'

/-- Counting the days of an interval that belong to a duplicate-free set of
days contained in that interval yields the size of the set. -/
theorem countP_range_mem (ds : List ℤ) (hnd : ds.Nodup) (d0 dend : ℤ)
    (hbound : ∀ x ∈ ds, d0 ≤ x ∧ x ≤ dend) :
    (List.range (dend - d0 + 1).toNat).countP
      (fun i : ℕ => decide ((d0 + (i : ℤ)) ∈ ds)) = ds.length := by
  have h1 : (List.range (dend - d0 + 1).toNat).countP
      (fun i : ℕ => decide ((d0 + (i : ℤ)) ∈ ds)) =
      (((List.range (dend - d0 + 1).toNat).map (fun i : ℕ => d0 + (i : ℤ))).filter
        (fun x => decide (x ∈ ds))).length := by
    rw [← List.countP_eq_length_filter, List.countP_map]
    rfl
  rw [h1]
  have hinj : Function.Injective (fun i : ℕ => d0 + (i : ℤ)) := by
    intro a b hab
    simp only at hab
    omega
  have hndR : ((List.range (dend - d0 + 1).toNat).map
      (fun i : ℕ => d0 + (i : ℤ))).Nodup :=
    (List.nodup_range _).map hinj
  have hndF := hndR.filter (fun x => decide (x ∈ ds))
  have hperm : (((List.range (dend - d0 + 1).toNat).map
      (fun i : ℕ => d0 + (i : ℤ))).filter (fun x => decide (x ∈ ds))) ~ ds := by
    apply List.perm_of_nodup_nodup_toFinset_eq hndF hnd
    ext x
    simp only [List.mem_toFinset, List.mem_filter, decide_eq_true_eq,
      List.mem_map, List.mem_range]
    constructor
    · rintro ⟨-, hx⟩
      exact hx
    · intro hx
      obtain ⟨h1x, h2x⟩ := hbound x hx
      exact ⟨⟨(x - d0).toNat, by omega, by omega⟩, hx⟩
  exact hperm.length_eq

/-- Claim C8: counting the positive-count entries of the gap-filled daily
history series yields exactly the number of distinct post-epoch activity
days derived directly from the transactions. -/
theorem claim8_days_active (transactions : List EtherTx) :
    calculateDaysActive (generateTransactionHistory transactions) =
      (((transactions.filter (fun tx => decide (launchDate ≤ tx.timeStamp))).map
          (fun tx => dayOf tx.timeStamp)).dedup).length := by
  by_cases hemp : transactions.isEmpty = true
  · have htx : transactions = [] := List.isEmpty_iff.mp hemp
    subst htx
    rfl
  · have hsorted : ((((transactions.filter
        (fun tx => decide (launchDate ≤ tx.timeStamp))).map
        (fun tx => dayOf tx.timeStamp)).dedup).mergeSort).Sorted (· ≤ ·) :=
      List.sorted_mergeSort' _
    have hperm := List.mergeSort_perm
      (((transactions.filter (fun tx => decide (launchDate ≤ tx.timeStamp))).map
        (fun tx => dayOf tx.timeStamp)).dedup) (fun a b => a ≤ b)
    rcases hds : (((transactions.filter
        (fun tx => decide (launchDate ≤ tx.timeStamp))).map
        (fun tx => dayOf tx.timeStamp)).dedup).mergeSort with _ | ⟨d0, drest⟩
    · rw [hds] at hperm
      have hded := hperm.symm.eq_nil
      have hgen : generateTransactionHistory transactions = [] := by
        simp only [generateTransactionHistory, hds]
        rw [if_neg hemp]
      rw [hgen, hded]
      rfl
    · rw [hds] at hperm hsorted
      have hgen : generateTransactionHistory transactions =
          (List.range
            ((((d0 :: drest).getLast (List.cons_ne_nil d0 drest)) - d0 + 1).toNat)).map
            (fun i : ℕ => dayEntry
              (transactions.filter (fun tx => decide (launchDate ≤ tx.timeStamp)))
              (d0 + (i : ℤ))) := by
        simp only [generateTransactionHistory, hds]
        rw [if_neg hemp]
      have hd0dend : d0 ≤ (d0 :: drest).getLast (List.cons_ne_nil d0 drest) :=
        le_getLast_of_sorted hsorted _ d0 (List.mem_cons_self d0 drest)
      have hnpos :
          0 < (((d0 :: drest).getLast (List.cons_ne_nil d0 drest)) - d0 + 1).toNat := by
        omega
      have hnodup : (((transactions.filter
          (fun tx => decide (launchDate ≤ tx.timeStamp))).map
          (fun tx => dayOf tx.timeStamp)).dedup).Nodup := List.nodup_dedup _
      have hbound : ∀ x ∈ ((transactions.filter
          (fun tx => decide (launchDate ≤ tx.timeStamp))).map
          (fun tx => dayOf tx.timeStamp)).dedup,
          d0 ≤ x ∧ x ≤ (d0 :: drest).getLast (List.cons_ne_nil d0 drest) := by
        intro x hx
        have hxs : x ∈ d0 :: drest := hperm.mem_iff.mpr hx
        constructor
        · rcases List.mem_cons.mp hxs with rfl | hx'
          · exact le_refl x
          · exact List.rel_of_sorted_cons hsorted x hx'
        · exact le_getLast_of_sorted hsorted _ x hxs
      rw [hgen]
      unfold calculateDaysActive
      rw [if_neg (by
        simp only [List.isEmpty_iff, List.map_eq_nil_iff, List.range_eq_nil]
        omega)]
      rw [← List.countP_eq_length_filter, List.countP_map]
      rw [List.countP_congr _, countP_range_mem
        (((transactions.filter (fun tx => decide (launchDate ≤ tx.timeStamp))).map
          (fun tx => dayOf tx.timeStamp)).dedup) hnodup d0
        ((d0 :: drest).getLast (List.cons_ne_nil d0 drest)) hbound]
      intro i _
      simp only [Function.comp_apply, dayEntry, decide_eq_true_eq]
      rw [List.length_pos_iff_exists_mem]
      constructor
      · rintro ⟨tx, htx⟩
        rw [List.mem_filter] at htx
        obtain ⟨htxp, htxd⟩ := htx
        exact List.mem_dedup.mpr
          (List.mem_map.mpr ⟨tx, htxp, by simpa using htxd⟩)
      · intro h
        obtain ⟨tx, htxp, htxd⟩ := List.mem_map.mp (List.mem_dedup.mp h)
        exact ⟨tx, List.mem_filter.mpr ⟨htxp, by simpa using htxd⟩⟩
